import Mathlib

/-!
# Verification of the image-bookmarking gallery (`src/App.tsx`)

A shallow embedding of the view-model in `src/App.tsx`: the bookmarked-image
list, the viewer cursor, the URL validator, the touch-gesture mapping and the
JSON persistence layer, together with theorems settling the specification
claims.

Conventions of the embedding:
* JavaScript numbers that only ever hold integers (`images.length`,
  `viewerIndex`, `Date.now()`, touch `clientX` rounded) are modelled as `Int`
  (indices) or `Nat` (lengths).  The JavaScript `%` operator on integers is
  truncated remainder, i.e. `Int.tmod`; `x % 0` is `NaN`, modelled by a
  dedicated cursor value.
* `viewerIndex : number | null` becomes the inductive `Cursor`: `closed`
  models `null`, `pos i` a numeric index (possibly out of range, exactly as
  in the source), `nan` the IEEE `NaN` produced by `% 0` and propagated by
  `Math.min`.
* `Math.random()`-driven choices in the shuffle are an explicit choice
  function `rand : Nat → Nat`; `Math.floor(Math.random() * (i + 1))` is a
  value in `[0, i]`, modelled by clamping `rand i` with `min · i`.
-/

/-- An `ImageItem` record (`type ImageItem` in the source).  The optional
field `error?: boolean` is `Option Bool`: absent on creation, set to
`some true` by the image-error handler. -/
structure ImageItem where
  id : String
  url : String
  createdAt : Int
  error : Option Bool
deriving DecidableEq, Repr

/-- The `viewerIndex` state: `closed` is `null`, `pos i` a number, `nan` the
IEEE `NaN` that `(x % 0)` produces and `Math.min` propagates. -/
inductive Cursor where
  | closed
  | pos (i : Int)
  | nan
deriving DecidableEq, Repr

/-- The view-model state held by the component: the input buffer, the image
list, the viewer cursor, the in-flight flag and the recorded touch start. -/
structure AppState where
  urlInput : String
  images : List ImageItem
  viewerIndex : Cursor
  isSubmitting : Bool
  touchStartX : Option Int
deriving DecidableEq, Repr

/-- The initial component state: empty input, empty list, viewer closed. -/
def initState : AppState := ⟨"", [], Cursor.closed, false, none⟩

/-! ## The URL validator (`isValidUrl`, source lines 59–67) -/

/-- The whitespace set stripped by JavaScript `String.prototype.trim`
(ECMAScript WhiteSpace and LineTerminator code points). -/
def jsWhitespace (c : Char) : Bool :=
  c = ' ' || c = '\t' || c = '\n' || c = '\r' ||
  c = Char.ofNat 0x0b || c = Char.ofNat 0x0c || c = Char.ofNat 0xa0 ||
  c = Char.ofNat 0x1680 || (0x2000 ≤ c.toNat && c.toNat ≤ 0x200a) ||
  c = Char.ofNat 0x2028 || c = Char.ofNat 0x2029 || c = Char.ofNat 0x202f ||
  c = Char.ofNat 0x205f || c = Char.ofNat 0x3000 || c = Char.ofNat 0xfeff

/-- JavaScript `String.prototype.trim` on a character list. -/
def jsTrim (cs : List Char) : List Char :=
  ((cs.dropWhile jsWhitespace).reverse.dropWhile jsWhitespace).reverse

def isAsciiAlpha (c : Char) : Bool :=
  ('a' ≤ c && c ≤ 'z') || ('A' ≤ c && c ≤ 'Z')

/-- Characters allowed in a URL scheme after the first letter. -/
def isSchemeChar (c : Char) : Bool :=
  isAsciiAlpha c || c.isDigit || c = '+' || c = '-' || c = '.'

/-- ASCII lowercasing, as applied to schemes by the URL parser. -/
def lowerChar (c : Char) : Char :=
  if 'A' ≤ c && c ≤ 'Z' then Char.ofNat (c.toNat + 32) else c

/-- C0 control characters and space, stripped from both ends by the URL
parser before parsing. -/
def isC0OrSpace (c : Char) : Bool := c.toNat ≤ 0x20

def stripControl (cs : List Char) : List Char :=
  ((cs.dropWhile isC0OrSpace).reverse.dropWhile isC0OrSpace).reverse

/-- The part of an authority after the last `@` (i.e. with any userinfo
removed). -/
def afterLastAt (cs : List Char) : List Char :=
  (cs.reverse.takeWhile (fun c => c ≠ '@')).reverse

/-- The special schemes of the WHATWG URL standard other than `file`: they
require a non-empty host. -/
def isSpecialNonFile (scheme : List Char) : Bool :=
  scheme == "http".data || scheme == "https".data || scheme == "ws".data ||
  scheme == "wss".data || scheme == "ftp".data

/-- The result of a successful `new URL(...)` call, at the fidelity the
validator needs: the `protocol` property (lowercased scheme plus `":"`) and
the unparsed remainder. -/
structure UrlRecord where
  protocol : List Char
  remainder : List Char
deriving DecidableEq, Repr

/-- Model of the WHATWG URL constructor `new URL(input)` with no base, as the
validator uses it.  Faithful points: leading/trailing C0-control-or-space is
stripped and tab/LF/CR removed everywhere before parsing; an input whose
first character is not an ASCII letter, or that has no `":"` terminating a
well-formed scheme, throws (no base URL); the scheme is lowercased; the
special schemes other than `file` require a non-empty host (after slashes and
userinfo) containing no forbidden character, with a digits-only port.
Simplifications (none observable by the theorems below): host validation
checks only a representative subset of forbidden host code points, IPv6
bracket syntax and percent-decoding are not modelled, and path/query/fragment
are kept unparsed in `remainder`. -/
def parseUrl (input : List Char) : Option UrlRecord :=
  let s := (stripControl input).filter
    (fun c => !(c = '\t' || c = '\n' || c = '\r'))
  match s with
  | [] => none
  | c :: _ =>
    if isAsciiAlpha c then
      let schemeRaw := s.takeWhile isSchemeChar
      let scheme := schemeRaw.map lowerChar
      match s.drop schemeRaw.length with
      | ':' :: afterColon =>
        if isSpecialNonFile scheme then
          let afterSlashes := afterColon.dropWhile (fun c => c = '/' || c = '\\')
          let authority := afterSlashes.takeWhile
            (fun c => !(c = '/' || c = '\\' || c = '?' || c = '#'))
          let hostport := afterLastAt authority
          let host := hostport.takeWhile (fun c => c ≠ ':')
          let port := (hostport.dropWhile (fun c => c ≠ ':')).drop 1
          if host.isEmpty then none
          else if host.any (fun c => c = ' ' || c = '<' || c = '>' || c = '@' || c = '[' || c = ']' || c = '^' || c = '|') then none
          else if port.all Char.isDigit then some ⟨scheme ++ [':'], afterColon⟩
          else none
        else some ⟨scheme ++ [':'], afterColon⟩
      | _ => none
    else none

/-- `isValidUrl` (source lines 59–67): blank input is invalid; otherwise the
trimmed input must parse as a URL whose protocol is `http:` or `https:`. -/
def isValidUrl (urlInput : String) : Bool :=
  let t := jsTrim urlInput.data
  if t.isEmpty then false
  else
    match parseUrl t with
    | some u => u.protocol == "http:".data || u.protocol == "https:".data
    | none => false

/-! ## The store operations (source lines 69–146) -/

/-- `addImage` (source lines 69–80).  The fresh id produced by
`crypto.randomUUID()` and the `Date.now()` timestamp are parameters.  The
guard returns without touching anything when the input is invalid or an add
is in flight; otherwise the new record is prepended, the input buffer
cleared, and the in-flight flag ends `false` (it is set and cleared within
the same synchronous body). -/
def addImage (freshId : String) (now : Int) (s : AppState) : AppState :=
  if !isValidUrl s.urlInput || s.isSubmitting then s
  else
    { s with
      images := ⟨freshId, String.mk (jsTrim s.urlInput.data), now, none⟩ :: s.images,
      urlInput := "",
      isSubmitting := false }

/-- `removeImage` (source lines 82–85): filters out every record whose id
equals the argument, and clamps an open cursor to
`Math.min(curr, images.length - 2)` where `images.length` is the length
*before* the removal (the value captured by the callback).  `Math.min` on
`NaN` yields `NaN`. -/
def removeImage (id : String) (s : AppState) : AppState :=
  { s with
    images := s.images.filter (fun img => img.id != id),
    viewerIndex :=
      match s.viewerIndex with
      | Cursor.closed => Cursor.closed
      | Cursor.nan => Cursor.nan
      | Cursor.pos i => Cursor.pos (min i ((s.images.length : Int) - 2)) }

/-- `handleImageError` (source lines 87–91): sets `error: true` on every
record whose id matches, by a structure-preserving map. -/
def handleImageError (id : String) (s : AppState) : AppState :=
  { s with
    images := s.images.map
      (fun img => if img.id = id then { img with error := some true } else img) }

/-- Swap the elements at positions `i` and `j` of a list, as the destructuring
assignment `[arr[i], arr[j]] = [arr[j], arr[i]]` does; `d` is a default for
the (never exercised) out-of-range reads. -/
def listSwap (d : α) (l : List α) (i j : Nat) : List α :=
  (l.set i (l.getD j d)).set j (l.getD i d)

/-- The Fisher–Yates loop of `shuffleImages` (source lines 93–102): iterate
`i` from `arr.length - 1` down to `1`, swapping `arr[i]` with `arr[j]` for a
chosen `j ∈ [0, i]`. -/
def fisherYatesAux (d : α) (rand : Nat → Nat) : Nat → List α → List α
  | 0, arr => arr
  | i + 1, arr =>
      fisherYatesAux d rand i (listSwap d arr (i + 1) (min (rand (i + 1)) (i + 1)))

def defaultItem : ImageItem := ⟨"", "", 0, none⟩

/-- `shuffleImages` (source lines 93–102), with the random choices supplied
by `rand`. -/
def shuffleImages (rand : Nat → Nat) (s : AppState) : AppState :=
  { s with images := fisherYatesAux defaultItem rand (s.images.length - 1) s.images }

/-- `openViewer` (source lines 104–106); the UI invokes it with the index of
a rendered (hence in-range, non-error) tile. -/
def openViewer (i : Nat) (s : AppState) : AppState :=
  { s with viewerIndex := Cursor.pos i }

/-- `closeViewer` (source lines 108–110). -/
def closeViewer (s : AppState) : AppState :=
  { s with viewerIndex := Cursor.closed }

/-- `goPrev` (source lines 112–114): `null` stays `null`; otherwise
`(curr - 1 + images.length) % images.length` with JavaScript `%` (truncated
remainder; `% 0` gives `NaN`, and `NaN` propagates). -/
def goPrev (s : AppState) : AppState :=
  { s with viewerIndex :=
      match s.viewerIndex with
      | Cursor.closed => Cursor.closed
      | Cursor.nan => Cursor.nan
      | Cursor.pos i =>
          if s.images.length = 0 then Cursor.nan
          else Cursor.pos ((i - 1 + (s.images.length : Int)).tmod s.images.length) }

/-- `goNext` (source lines 116–118): as `goPrev` with `(curr + 1) % length`. -/
def goNext (s : AppState) : AppState :=
  { s with viewerIndex :=
      match s.viewerIndex with
      | Cursor.closed => Cursor.closed
      | Cursor.nan => Cursor.nan
      | Cursor.pos i =>
          if s.images.length = 0 then Cursor.nan
          else Cursor.pos ((i + 1).tmod s.images.length) }

/-- `onTouchStart` (source lines 132–134): record
`e.touches[0]?.clientX ?? null`. -/
def onTouchStart (clientX : Option Int) (s : AppState) : AppState :=
  { s with touchStartX := clientX }

/-- `onTouchEnd` (source lines 135–146): if no start is recorded, do nothing;
otherwise compute the horizontal delta (`?? touchStartX.current` when there
is no changed touch), trigger `goPrev` above `+40`, `goNext` below `-40`,
nothing in between, and reset the recorded start. -/
def onTouchEnd (clientX : Option Int) (s : AppState) : AppState :=
  match s.touchStartX with
  | none => s
  | some startX =>
    let endX := clientX.getD startX
    let delta := endX - startX
    let s1 := if delta > 40 then goPrev s else if delta < -40 then goNext s else s
    { s1 with touchStartX := none }

/-- Typing into the URL input (`onChange`, source line 207). -/
def setUrlInput (t : String) (s : AppState) : AppState :=
  { s with urlInput := t }

/-- The spec's `Open` viewer state: the cursor is a number that is a valid
position in the current list.  The modal renders only in (a subset of) such
states (`viewerIndex !== null && images[viewerIndex]`, source line 308). -/
def viewerOpen (s : AppState) : Prop :=
  ∃ i : Int, s.viewerIndex = Cursor.pos i ∧ 0 ≤ i ∧ i < (s.images.length : Int)

/-! ## The persistence layer (`STORAGE_KEY` effects, source lines 43–57)

JSON values are modelled by the inductive `Json`; numbers are modelled as
integers (the app only ever writes the integers `Date.now()` produces, and
the parser below rejects fractional/exponent forms, a simplification never
exercised by the theorems).  `JSON.stringify` of an `ImageItem[]` is
reproduced character-for-character (key insertion order `id`, `url`,
`createdAt`, then `error` when present; no whitespace; the standard string
escapes).  `JSON.parse` is modelled by a fuel-driven recursive-descent
parser for the JSON grammar; `\uXXXX` escapes denoting surrogate halves are
rejected (Lean characters are Unicode scalars, JavaScript strings UTF-16),
which no theorem exercises. -/

inductive Json where
  | null
  | bool (b : Bool)
  | num (n : Int)
  | str (s : List Char)
  | arr (elems : List Json)
  | obj (fields : List (List Char × Json))
deriving Repr

def digitChar : Nat → Char
  | 0 => '0'
  | 1 => '1'
  | 2 => '2'
  | 3 => '3'
  | 4 => '4'
  | 5 => '5'
  | 6 => '6'
  | 7 => '7'
  | 8 => '8'
  | _ => '9'

/-- Fuel-driven digit printer (`n + 1` fuel always suffices, since `n / 10`
decreases); kept structural so that it evaluates by `rfl`. -/
def digitsOfAux : Nat → Nat → List Char
  | 0, _ => []
  | fuel + 1, n =>
      if n < 10 then [digitChar n]
      else digitsOfAux fuel (n / 10) ++ [digitChar (n % 10)]

/-- The decimal digits of `n`, most significant first, as `JSON.stringify`
prints a non-negative integer. -/
def digitsOf (n : Nat) : List Char := digitsOfAux (n + 1) n

/-- `JSON.stringify` of an integer. -/
def encInt (n : Int) : List Char :=
  if n < 0 then '-' :: digitsOf n.natAbs else digitsOf n.toNat

def hexDigitChar (n : Nat) : Char :=
  if n < 10 then digitChar n
  else if n = 10 then 'a'
  else if n = 11 then 'b'
  else if n = 12 then 'c'
  else if n = 13 then 'd'
  else if n = 14 then 'e'
  else 'f'

/-- The escape `JSON.stringify` applies to one string character (ECMA-262
`QuoteJSONString`): the named escapes, `\u00xx` for other control
characters, the character itself otherwise. -/
def escChar (c : Char) : List Char :=
  if c = '"' then ['\\', '"']
  else if c = '\\' then ['\\', '\\']
  else if c = Char.ofNat 8 then ['\\', 'b']
  else if c = '\t' then ['\\', 't']
  else if c = '\n' then ['\\', 'n']
  else if c = Char.ofNat 12 then ['\\', 'f']
  else if c = '\r' then ['\\', 'r']
  else if c.toNat < 0x20 then
    ['\\', 'u', '0', '0', hexDigitChar (c.toNat / 16), hexDigitChar (c.toNat % 16)]
  else [c]

def escList : List Char → List Char
  | [] => []
  | c :: cs => escChar c ++ escList cs

/-- A JSON string literal: `"` escaped-body `"`. -/
def encString (s : List Char) : List Char :=
  '"' :: escList s ++ ['"']

def encBool (b : Bool) : List Char :=
  if b then "true".data else "false".data

/-- One `key:value` member of a stringified object. -/
def fieldText (k : List Char) (v : List Char) : List Char :=
  encString k ++ ':' :: v

/-- The members of `JSON.stringify`'s output for one record, including the
closing `}`: insertion order `id`, `url`, `createdAt`, then `error` only
when the field is present. -/
def itemFieldsText (it : ImageItem) : List Char :=
  fieldText "id".data (encString it.id.data) ++
  ',' :: fieldText "url".data (encString it.url.data) ++
  ',' :: fieldText "createdAt".data (encInt it.createdAt) ++
  (match it.error with
   | none => []
   | some b => ',' :: fieldText "error".data (encBool b)) ++ ['}']

def encItem (it : ImageItem) : List Char :=
  '{' :: itemFieldsText it

def encItemsSep : List ImageItem → List Char
  | [] => []
  | [it] => encItem it
  | it :: rest => encItem it ++ ',' :: encItemsSep rest

/-- `JSON.stringify(images)` (source line 55). -/
def stringifyImages (l : List ImageItem) : List Char :=
  '[' :: encItemsSep l ++ [']']

/-- The JSON value of one record, mirroring `itemFieldsText`. -/
def itemJson (it : ImageItem) : Json :=
  Json.obj (("id".data, Json.str it.id.data) ::
    ("url".data, Json.str it.url.data) ::
    ("createdAt".data, Json.num it.createdAt) ::
    (match it.error with
     | none => []
     | some b => [("error".data, Json.bool b)]))

def encodeItems (l : List ImageItem) : Json :=
  Json.arr (l.map itemJson)

/-! ### The parser (`JSON.parse`) -/

def isJsonWs (c : Char) : Bool :=
  c = ' ' || c = '\t' || c = '\n' || c = '\r'

def skipWs (cs : List Char) : List Char :=
  cs.dropWhile isJsonWs

def hexVal (c : Char) : Option Nat :=
  if '0' ≤ c && c ≤ '9' then some (c.toNat - 48)
  else if 'a' ≤ c && c ≤ 'f' then some (c.toNat - 87)
  else if 'A' ≤ c && c ≤ 'F' then some (c.toNat - 55)
  else none

/-- Accumulate decimal digits. -/
def parseDigitsAux (acc : Nat) : List Char → Nat × List Char
  | [] => (acc, [])
  | c :: cs =>
      if c.isDigit then parseDigitsAux (acc * 10 + (c.toNat - 48)) cs
      else (acc, c :: cs)

/-- A JSON unsigned number: `0`, or a nonzero digit followed by digits; a
leading zero before further digits is a syntax error, and a following `.`,
`e` or `E` (a non-integer number) is rejected by this integer-only model. -/
def parseNatNumber (cs : List Char) : Option (Nat × List Char) :=
  match cs with
  | [] => none
  | c :: rest =>
    if c = '0' then
      match rest with
      | [] => some (0, [])
      | c2 :: _ =>
          if c2.isDigit || c2 = '.' || c2 = 'e' || c2 = 'E' then none
          else some (0, rest)
    else if c.isDigit then
      match parseDigitsAux (c.toNat - 48) rest with
      | (n, r) =>
        match r with
        | [] => some (n, [])
        | c2 :: _ =>
            if c2 = '.' || c2 = 'e' || c2 = 'E' then none
            else some (n, r)
    else none

def parseNumber (cs : List Char) : Option (Int × List Char) :=
  match cs with
  | [] => none
  | c :: rest =>
    if c = '-' then (parseNatNumber rest).map (fun p => (-(p.1 : Int), p.2))
    else (parseNatNumber (c :: rest)).map (fun p => ((p.1 : Int), p.2))

/-- The body of a JSON string literal, after the opening quote. -/
def parseStrBody : Nat → List Char → Option (List Char × List Char)
  | 0, _ => none
  | fuel + 1, cs =>
    match cs with
    | [] => none
    | c :: rest =>
      if c = '"' then some ([], rest)
      else if c = '\\' then
        match rest with
        | [] => none
        | e :: rest2 =>
          if e = '"' then (parseStrBody fuel rest2).map (fun p => ('"' :: p.1, p.2))
          else if e = '\\' then (parseStrBody fuel rest2).map (fun p => ('\\' :: p.1, p.2))
          else if e = '/' then (parseStrBody fuel rest2).map (fun p => ('/' :: p.1, p.2))
          else if e = 'b' then (parseStrBody fuel rest2).map (fun p => (Char.ofNat 8 :: p.1, p.2))
          else if e = 'f' then (parseStrBody fuel rest2).map (fun p => (Char.ofNat 12 :: p.1, p.2))
          else if e = 'n' then (parseStrBody fuel rest2).map (fun p => ('\n' :: p.1, p.2))
          else if e = 'r' then (parseStrBody fuel rest2).map (fun p => ('\r' :: p.1, p.2))
          else if e = 't' then (parseStrBody fuel rest2).map (fun p => ('\t' :: p.1, p.2))
          else if e = 'u' then
            match rest2 with
            | h1 :: h2 :: h3 :: h4 :: rest3 =>
              match hexVal h1, hexVal h2, hexVal h3, hexVal h4 with
              | some a, some b, some c3, some d =>
                let n := ((a * 16 + b) * 16 + c3) * 16 + d
                if 0xd800 ≤ n && n ≤ 0xdfff then none
                else (parseStrBody fuel rest3).map (fun p => (Char.ofNat n :: p.1, p.2))
              | _, _, _, _ => none
            | _ => none
          else none
      else if c.toNat < 0x20 then none
      else (parseStrBody fuel rest).map (fun p => (c :: p.1, p.2))

mutual

/-- A JSON value (after skipping leading whitespace). -/
def parseValue : Nat → List Char → Option (Json × List Char)
  | 0, _ => none
  | fuel + 1, cs =>
    match skipWs cs with
    | [] => none
    | c :: rest =>
      if c = '{' then
        match skipWs rest with
        | '}' :: r => some (Json.obj [], r)
        | _ => (parseFields fuel (skipWs rest)).map (fun p => (Json.obj p.1, p.2))
      else if c = '[' then
        match skipWs rest with
        | ']' :: r => some (Json.arr [], r)
        | _ => (parseElems fuel (skipWs rest)).map (fun p => (Json.arr p.1, p.2))
      else if c = '"' then
        (parseStrBody fuel rest).map (fun p => (Json.str p.1, p.2))
      else if c = 't' then
        match rest with
        | 'r' :: 'u' :: 'e' :: r => some (Json.bool true, r)
        | _ => none
      else if c = 'f' then
        match rest with
        | 'a' :: 'l' :: 's' :: 'e' :: r => some (Json.bool false, r)
        | _ => none
      else if c = 'n' then
        match rest with
        | 'u' :: 'l' :: 'l' :: r => some (Json.null, r)
        | _ => none
      else (parseNumber (c :: rest)).map (fun p => (Json.num p.1, p.2))

/-- One-or-more comma-separated array elements, ending at `]`. -/
def parseElems : Nat → List Char → Option (List Json × List Char)
  | 0, _ => none
  | fuel + 1, cs =>
    match parseValue fuel cs with
    | none => none
    | some (v, r) =>
      match skipWs r with
      | ',' :: r2 => (parseElems fuel r2).map (fun p => (v :: p.1, p.2))
      | ']' :: r2 => some ([v], r2)
      | _ => none

/-- One-or-more comma-separated object members, ending at `}`. -/
def parseFields : Nat → List Char → Option (List (List Char × Json) × List Char)
  | 0, _ => none
  | fuel + 1, cs =>
    match skipWs cs with
    | '"' :: rest =>
      match parseStrBody fuel rest with
      | none => none
      | some (k, r) =>
        match skipWs r with
        | ':' :: r2 =>
          match parseValue fuel r2 with
          | none => none
          | some (v, r3) =>
            match skipWs r3 with
            | ',' :: r4 => (parseFields fuel r4).map (fun p => ((k, v) :: p.1, p.2))
            | '}' :: r4 => some ([(k, v)], r4)
            | _ => none
        | _ => none
    | _ => none

end

/-- `JSON.parse`: a complete value with only whitespace after it.  The fuel
`2 * length + 2` dominates the parser's recursion depth (at least one input
character is consumed per two nested calls). -/
def jsonParse (cs : List Char) : Option Json :=
  match parseValue (2 * cs.length + 2) cs with
  | some (j, r) => if (skipWs r).isEmpty then some j else none
  | none => none

/-- The load effect (source lines 43–51), as the value that lands in
`images`, kept as JSON: `localStorage.getItem` returning `null` or the
falsy empty string leaves the initial `[]`; text on which `JSON.parse`
throws is caught and also leaves `[]`; any successfully parsed JSON value
is installed as-is — the `as ImageItem[]` cast performs no validation. -/
def startupValue (raw : Option (List Char)) : Json :=
  match raw with
  | none => Json.arr []
  | some t =>
    if t.isEmpty then Json.arr []
    else
      match jsonParse t with
      | some j => j
      | none => Json.arr []

/-- Decoder relating the JSON shape back to records: an object with exactly
the members `JSON.stringify` writes for an `ImageItem`. -/
def decodeItem (j : Json) : Option ImageItem :=
  match j with
  | Json.obj [(k1, Json.str i), (k2, Json.str u), (k3, Json.num n)] =>
      if k1 = "id".data ∧ k2 = "url".data ∧ k3 = "createdAt".data then
        some ⟨String.mk i, String.mk u, n, none⟩
      else none
  | Json.obj [(k1, Json.str i), (k2, Json.str u), (k3, Json.num n), (k4, Json.bool b)] =>
      if k1 = "id".data ∧ k2 = "url".data ∧ k3 = "createdAt".data ∧ k4 = "error".data then
        some ⟨String.mk i, String.mk u, n, some b⟩
      else none
  | _ => none

def decodeItemList : List Json → Option (List ImageItem)
  | [] => some []
  | j :: js => (decodeItem j).bind (fun it => (decodeItemList js).map (fun l => it :: l))

def decodeItems (j : Json) : Option (List ImageItem) :=
  match j with
  | Json.arr es => decodeItemList es
  | _ => none

/-! ## Reachability

One inductive step per UI event, with the guard under which the interface
can actually fire it: `removeImage` is only invoked with the id of a
rendered record, `openViewer` with the index of a rendered tile, the
keyboard effect (and the modal's buttons and touch surface) dispatch
`goPrev`/`goNext` only while `viewerIndex !== null`, and the id supplied by
`crypto.randomUUID()` is fresh. -/

inductive Step : AppState → AppState → Prop where
  | input (t : String) (s : AppState) : Step s (setUrlInput t s)
  | add (freshId : String) (now : Int) (s : AppState)
      (hfresh : freshId ∉ s.images.map ImageItem.id) :
      Step s (addImage freshId now s)
  | remove (id : String) (s : AppState) (hmem : id ∈ s.images.map ImageItem.id) :
      Step s (removeImage id s)
  | markError (id : String) (s : AppState) : Step s (handleImageError id s)
  | shuffle (rand : Nat → Nat) (s : AppState) : Step s (shuffleImages rand s)
  | openV (i : Nat) (s : AppState) (hi : i < s.images.length) :
      Step s (openViewer i s)
  | close (s : AppState) : Step s (closeViewer s)
  | prev (s : AppState) (h : s.viewerIndex ≠ Cursor.closed) : Step s (goPrev s)
  | next (s : AppState) (h : s.viewerIndex ≠ Cursor.closed) : Step s (goNext s)
  | touchStart (x : Option Int) (s : AppState) (h : s.viewerIndex ≠ Cursor.closed) :
      Step s (onTouchStart x s)
  | touchEnd (x : Option Int) (s : AppState) (h : s.viewerIndex ≠ Cursor.closed) :
      Step s (onTouchEnd x s)

/-- States reachable from the initial state by UI events. -/
inductive Reachable : AppState → Prop where
  | init : Reachable initState
  | step {s s' : AppState} : Reachable s → Step s s' → Reachable s'

/-- The id-uniqueness invariant of the data model. -/
def idsNodup (s : AppState) : Prop :=
  (s.images.map ImageItem.id).Nodup

/-- The cursor-bounds invariant actually maintained by the code: an open
(numeric) cursor lies in `[-1, length)` — `-1`, one below the valid range,
occurs exactly after the last record is removed while viewed. -/
def cursorInv (s : AppState) : Prop :=
  ∀ i : Int, s.viewerIndex = Cursor.pos i → -1 ≤ i ∧ i < (s.images.length : Int)

/-- The combined invariant maintained by every UI event: ids are pairwise
distinct, and an open cursor lies in `[-1, length)`. -/
def stateInv (s : AppState) : Prop := idsNodup s ∧ cursorInv s

/-- `true` when the list does not continue a number literal: used to cut a
number off from the following text. -/
def numBoundary : List Char → Bool
  | [] => true
  | c :: _ => !(c.isDigit || c = '.' || c = 'e' || c = 'E')

/-- Key, value text and value JSON of the fields of a stringified object. -/
def fieldsTextOf : List (List Char × List Char × Json) → List Char
  | [] => ['}']
  | [(k, v, _)] => fieldText k v ++ ['}']
  | (k, v, _) :: rest => fieldText k v ++ ',' :: fieldsTextOf rest

/-- The field descriptors of one stringified record. -/
def itemFieldDescs (it : ImageItem) : List (List Char × List Char × Json) :=
  ("id".data, encString it.id.data, Json.str it.id.data) ::
  ("url".data, encString it.url.data, Json.str it.url.data) ::
  ("createdAt".data, encInt it.createdAt, Json.num it.createdAt) ::
  (match it.error with
   | none => []
   | some b => [("error".data, encBool b, Json.bool b)])

/-- Concrete record `a` (used by witnesses and counterexamples). -/
def exItemA : ImageItem := ⟨"a", "https://x/a.png", 0, none⟩

/-- Concrete record `b`, added after `a`. -/
def exItemB : ImageItem := ⟨"b", "https://x/b.png", 1, none⟩

/-- One bookmarked image, viewer open on it. -/
def exStateA_open : AppState := ⟨"", [exItemA], Cursor.pos 0, false, none⟩

/-- Two bookmarked images (`b` added after `a`), viewer closed. -/
def exStateBA : AppState := ⟨"", [exItemB, exItemA], Cursor.closed, false, none⟩

/-- Two bookmarked images, viewer open on index 1. -/
def exStateBA_open : AppState := ⟨"", [exItemB, exItemA], Cursor.pos 1, false, none⟩

/-- Two bookmarked images, viewer open on index 0, a touch in progress that
started at `x = 100`. -/
def exStateTouch : AppState := ⟨"", [exItemB, exItemA], Cursor.pos 0, false, some 100⟩

/-! ## Helper lemmas: the shuffle is a permutation -/

theorem getD_set_cons_perm (d x : α) :
    ∀ (xs : List α) (j : Nat), j < xs.length →
      List.Perm (xs.getD j d :: xs.set j x) (x :: xs) := by
  intro xs
  induction xs with
  | nil => intro j hj; simp at hj
  | cons y ys ih =>
    intro j hj
    cases j with
    | zero =>
      simpa using List.Perm.swap x y ys
    | succ k =>
      have hk : k < ys.length := by simpa using hj
      simp only [List.getD_cons_succ, List.set_cons_succ]
      exact ((List.Perm.swap y (ys.getD k d) (ys.set k x)).trans
        (List.Perm.cons y (ih k hk))).trans (List.Perm.swap x y ys)

theorem listSwap_perm (d : α) :
    ∀ (l : List α) (i j : Nat), i < l.length → j < l.length →
      List.Perm (listSwap d l i j) l := by
  intro l
  induction l with
  | nil => intro i j hi _; simp at hi
  | cons x xs ih =>
    intro i j hi hj
    cases i with
    | zero =>
      cases j with
      | zero =>
        simp only [listSwap, List.getD_cons_zero, List.set_cons_zero]
        exact List.Perm.refl _
      | succ m =>
        have hm : m < xs.length := by simpa using hj
        simp only [listSwap, List.getD_cons_zero, List.getD_cons_succ,
          List.set_cons_zero, List.set_cons_succ]
        exact getD_set_cons_perm d x xs m hm
    | succ k =>
      cases j with
      | zero =>
        have hk : k < xs.length := by simpa using hi
        simp only [listSwap, List.getD_cons_zero, List.getD_cons_succ,
          List.set_cons_zero, List.set_cons_succ]
        exact getD_set_cons_perm d x xs k hk
      | succ m =>
        have hk : k < xs.length := by simpa using hi
        have hm : m < xs.length := by simpa using hj
        simp only [listSwap, List.getD_cons_succ, List.set_cons_succ]
        exact List.Perm.cons x (ih k m hk hm)

theorem fisherYatesAux_perm (d : α) (rand : Nat → Nat) :
    ∀ (k : Nat) (l : List α), k < l.length →
      List.Perm (fisherYatesAux d rand k l) l := by
  intro k
  induction k with
  | zero => intro l _; exact List.Perm.refl l
  | succ k ih =>
    intro l hk
    have hj : min (rand (k + 1)) (k + 1) < l.length :=
      lt_of_le_of_lt (min_le_right _ _) hk
    have hswap := listSwap_perm d l (k + 1) (min (rand (k + 1)) (k + 1)) hk hj
    have hlen : (listSwap d l (k + 1) (min (rand (k + 1)) (k + 1))).length = l.length :=
      hswap.length_eq
    have hk2 : k < (listSwap d l (k + 1) (min (rand (k + 1)) (k + 1))).length := by omega
    exact (ih _ hk2).trans hswap

/-- The Fisher–Yates shuffle permutes the list (hence preserves its length
and its multiset of records). -/
theorem shuffleImages_perm (rand : Nat → Nat) (s : AppState) :
    List.Perm (shuffleImages rand s).images s.images := by
  unfold shuffleImages
  cases h : s.images with
  | nil => simp [fisherYatesAux, h]
  | cons x xs =>
    have : s.images.length - 1 < s.images.length := by simp [h]
    simpa [h] using fisherYatesAux_perm defaultItem rand (s.images.length - 1) s.images this

/-! ## Helper lemmas: removal -/

theorem removeImage_filter_length (l : List ImageItem) (id : String)
    (hnd : (l.map ImageItem.id).Nodup) (hmem : id ∈ l.map ImageItem.id) :
    (l.filter (fun img => img.id != id)).length + 1 = l.length := by
  induction l with
  | nil => simp at hmem
  | cons x xs ih =>
    simp only [List.map_cons, List.nodup_cons] at hnd
    rcases List.mem_cons.mp hmem with h | h
    · have hall : xs.filter (fun img => img.id != id) = xs := by
        rw [List.filter_eq_self]
        intro a ha
        have hmem2 : a.id ∈ xs.map ImageItem.id := List.mem_map_of_mem _ ha
        have hne : a.id ≠ id := by
          intro he
          apply hnd.1
          rw [← h, ← he]
          exact hmem2
        simpa using hne
      have hx : (x.id != id) = false := by simp [h]
      simp [List.filter_cons, hx, hall]
    · have hx : (x.id != id) = true := by
        have : x.id ≠ id := fun he => hnd.1 (by rw [he]; exact h)
        simpa using this
      have := ih hnd.2 h
      simp [List.filter_cons, hx]
      omega

theorem removeImage_ids_nodup (l : List ImageItem) (id : String)
    (hnd : (l.map ImageItem.id).Nodup) :
    ((l.filter (fun img => img.id != id)).map ImageItem.id).Nodup :=
  List.Nodup.sublist (List.Sublist.map ImageItem.id (List.filter_sublist l)) hnd

theorem handleImageError_ids (id : String) (s : AppState) :
    (handleImageError id s).images.map ImageItem.id = s.images.map ImageItem.id := by
  simp only [handleImageError, List.map_map]
  apply List.map_congr_left
  intro a _
  by_cases h : a.id = id <;> simp [h]

theorem handleImageError_length (id : String) (s : AppState) :
    (handleImageError id s).images.length = s.images.length := by
  simp [handleImageError]

/-! ## Helper lemmas: the state invariant -/

theorem goPrev_images (s : AppState) : (goPrev s).images = s.images := rfl

theorem goNext_images (s : AppState) : (goNext s).images = s.images := rfl

theorem goPrev_cursorInv (s : AppState) (h : cursorInv s) : cursorInv (goPrev s) := by
  intro i hi
  rw [goPrev_images]
  cases hv : s.viewerIndex with
  | closed => simp [goPrev, hv] at hi
  | nan => simp [goPrev, hv] at hi
  | pos j =>
    have hb := h j hv
    by_cases hlen : s.images.length = 0
    · simp [goPrev, hv, hlen] at hi
    · simp only [goPrev, hv, if_neg hlen] at hi
      have hi2 : (j - 1 + (s.images.length : Int)).tmod s.images.length = i :=
        Cursor.pos.inj hi
      by_cases h1 : s.images.length = 1
      · rw [h1] at hi2
        simp [Int.tmod_one] at hi2
        omega
      · have hpos : (0 : Int) < s.images.length := by
          have : 0 < s.images.length := Nat.pos_of_ne_zero hlen
          exact_mod_cast this
        have hge : (0 : Int) ≤ j - 1 + s.images.length := by
          have : (2 : Int) ≤ s.images.length := by
            have h2 : 2 ≤ s.images.length := by omega
            exact_mod_cast h2
          omega
        have hnn := Int.tmod_nonneg (s.images.length : Int) hge
        have hlt := Int.tmod_lt_of_pos (j - 1 + (s.images.length : Int)) hpos
        omega

theorem goNext_cursorInv (s : AppState) (h : cursorInv s) : cursorInv (goNext s) := by
  intro i hi
  rw [goNext_images]
  cases hv : s.viewerIndex with
  | closed => simp [goNext, hv] at hi
  | nan => simp [goNext, hv] at hi
  | pos j =>
    have hb := h j hv
    by_cases hlen : s.images.length = 0
    · simp [goNext, hv, hlen] at hi
    · simp only [goNext, hv, if_neg hlen] at hi
      have hi2 : (j + 1).tmod s.images.length = i := Cursor.pos.inj hi
      have hpos : (0 : Int) < s.images.length := by
        have : 0 < s.images.length := Nat.pos_of_ne_zero hlen
        exact_mod_cast this
      have hge : (0 : Int) ≤ j + 1 := by omega
      have hnn := Int.tmod_nonneg (s.images.length : Int) hge
      have hlt := Int.tmod_lt_of_pos (j + 1) hpos
      omega

theorem step_inv {s s' : AppState} (hs : Step s s') (h : stateInv s) : stateInv s' := by
  obtain ⟨hnd, hc⟩ := h
  cases hs with
  | input t s => exact ⟨hnd, hc⟩
  | add freshId now s hfresh =>
    by_cases hcond : (!isValidUrl s.urlInput || s.isSubmitting) = true
    · constructor
      · simpa [addImage, hcond, idsNodup] using hnd
      · intro i hi
        simp only [addImage, hcond, if_true] at hi ⊢
        exact hc i hi
    · have hcond' : (!isValidUrl s.urlInput || s.isSubmitting) = false := by
        simpa using hcond
      constructor
      · unfold idsNodup
        simp only [addImage, hcond', Bool.false_eq_true, if_false, List.map_cons]
        exact List.nodup_cons.mpr ⟨hfresh, hnd⟩
      · intro i hi
        simp only [addImage, hcond', Bool.false_eq_true, if_false] at hi ⊢
        have := hc i hi
        simp only [List.length_cons]
        push_cast
        omega
  | remove id s hmem =>
    have hlen1 : 1 ≤ s.images.length := by
      cases himg : s.images with
      | nil => rw [himg] at hmem; simp at hmem
      | cons a l => simp [himg]
    have hflen := removeImage_filter_length s.images id hnd hmem
    constructor
    · exact removeImage_ids_nodup s.images id hnd
    · intro i hi
      cases hv : s.viewerIndex with
      | closed => simp [removeImage, hv] at hi
      | nan => simp [removeImage, hv] at hi
      | pos j =>
        simp only [removeImage, hv] at hi
        have hb := hc j hv
        have hij : min j ((s.images.length : Int) - 2) = i := Cursor.pos.inj hi
        have hmin1 := min_le_left j ((s.images.length : Int) - 2)
        have hmin2 := min_le_right j ((s.images.length : Int) - 2)
        have hminge : -1 ≤ min j ((s.images.length : Int) - 2) := by
          apply le_min hb.1
          have : (1 : Int) ≤ s.images.length := by exact_mod_cast hlen1
          omega
        constructor
        · omega
        · simp only [removeImage]
          have : ((s.images.filter (fun img => img.id != id)).length : Int) + 1 =
              (s.images.length : Int) := by exact_mod_cast hflen
          omega
  | markError id s =>
    constructor
    · unfold idsNodup
      rw [handleImageError_ids]
      exact hnd
    · intro i hi
      simp only [handleImageError] at hi
      have := hc i hi
      simpa [handleImageError_length] using this
  | shuffle rand s =>
    have hperm := shuffleImages_perm rand s
    constructor
    · unfold idsNodup
      exact ((hperm.map ImageItem.id).nodup_iff).mpr hnd
    · intro i hi
      simp only [shuffleImages] at hi
      have := hc i hi
      have hlen := hperm.length_eq
      simp only [shuffleImages] at hlen ⊢
      omega
  | openV i s hi =>
    constructor
    · exact hnd
    · intro i' hi'
      simp only [openViewer] at hi'
      have : (i : Int) = i' := Cursor.pos.inj hi'
      simp only [openViewer]
      omega
  | close s =>
    exact ⟨hnd, fun i hi => by simp [closeViewer] at hi⟩
  | prev s h => exact ⟨hnd, goPrev_cursorInv s hc⟩
  | next s h => exact ⟨hnd, goNext_cursorInv s hc⟩
  | touchStart x s h => exact ⟨hnd, hc⟩
  | touchEnd x s h =>
    cases hts : s.touchStartX with
    | none =>
      constructor
      · simpa [onTouchEnd, hts, idsNodup] using hnd
      · intro i hi
        simp only [onTouchEnd, hts] at hi ⊢
        exact hc i hi
    | some startX =>
      by_cases h1 : x.getD startX - startX > 40
      · constructor
        · simpa [onTouchEnd, hts, h1, idsNodup, goPrev] using hnd
        · intro i hi
          simp only [onTouchEnd, hts, if_pos h1] at hi ⊢
          exact goPrev_cursorInv s hc i hi
      · by_cases h2 : x.getD startX - startX < -40
        · constructor
          · simpa [onTouchEnd, hts, h1, h2, idsNodup, goNext] using hnd
          · intro i hi
            simp only [onTouchEnd, hts, if_neg h1, if_pos h2] at hi ⊢
            exact goNext_cursorInv s hc i hi
        · constructor
          · simpa [onTouchEnd, hts, h1, h2, idsNodup] using hnd
          · intro i hi
            simp only [onTouchEnd, hts, if_neg h1, if_neg h2] at hi ⊢
            exact hc i hi

theorem reachable_inv {s : AppState} (h : Reachable s) : stateInv s := by
  induction h with
  | init =>
    constructor
    · simp [idsNodup, initState]
    · intro i hi
      simp [initState] at hi
  | step _ hstep ih => exact step_inv hstep ih

/-! ## Helper lemmas: integers survive the stringify/parse round trip -/

theorem digitChar_isDigit (k : Nat) (h : k < 10) : (digitChar k).isDigit = true := by
  interval_cases k <;> decide

theorem digitChar_toNat (k : Nat) (h : k < 10) : (digitChar k).toNat = 48 + k := by
  interval_cases k <;> decide

theorem digitsOfAux_congr :
    ∀ (f1 f2 n : Nat), n < f1 → n < f2 → digitsOfAux f1 n = digitsOfAux f2 n := by
  intro f1
  induction f1 with
  | zero => intro f2 n h1 _; omega
  | succ f ih =>
    intro f2 n h1 h2
    cases f2 with
    | zero => omega
    | succ g =>
      simp only [digitsOfAux]
      by_cases h10 : n < 10
      · simp [h10]
      · have hdiv : n / 10 < n := Nat.div_lt_self (by omega) (by omega)
        simp only [if_neg h10]
        rw [ih g (n / 10) (by omega) (by omega)]

theorem digitsOf_eq (n : Nat) :
    digitsOf n =
      if n < 10 then [digitChar n]
      else digitsOf (n / 10) ++ [digitChar (n % 10)] := by
  by_cases h : n < 10
  · simp [digitsOf, digitsOfAux, h]
  · have hdiv : n / 10 < n := Nat.div_lt_self (by omega) (by omega)
    have h1 : digitsOf n = digitsOfAux n (n / 10) ++ [digitChar (n % 10)] := by
      rw [show digitsOf n = digitsOfAux (n + 1) n from rfl]
      rw [show digitsOfAux (n + 1) n =
          if n < 10 then [digitChar n]
          else digitsOfAux n (n / 10) ++ [digitChar (n % 10)] from rfl]
      rw [if_neg h]
    rw [h1, if_neg h, digitsOfAux_congr n (n / 10 + 1) (n / 10) (by omega) (by omega)]
    rfl

theorem digitsOf_head_any (m : Nat) :
    ∃ k cs, digitsOf m = digitChar k :: cs ∧ k ≤ 9 := by
  induction m using Nat.strong_induction_on with
  | _ m ih =>
    rw [digitsOf_eq]
    by_cases h : m < 10
    · exact ⟨m, [], by simp [h], by omega⟩
    · obtain ⟨k, cs, hd, hk⟩ := ih (m / 10) (Nat.div_lt_self (by omega) (by omega))
      exact ⟨k, cs ++ [digitChar (m % 10)], by simp [if_neg h, hd], hk⟩

theorem digitsOf_head_pos (m : Nat) (hm : 1 ≤ m) :
    ∃ k cs, digitsOf m = digitChar k :: cs ∧ 1 ≤ k ∧ k ≤ 9 := by
  induction m using Nat.strong_induction_on with
  | _ m ih =>
    rw [digitsOf_eq]
    by_cases h : m < 10
    · exact ⟨m, [], by simp [h], hm, by omega⟩
    · obtain ⟨k, cs, hd, hk1, hk9⟩ :=
        ih (m / 10) (Nat.div_lt_self (by omega) (by omega)) (by omega)
      exact ⟨k, cs ++ [digitChar (m % 10)], by simp [if_neg h, hd], hk1, hk9⟩

theorem parseDigitsAux_digits (n : Nat) :
    ∀ (acc : Nat) (r : List Char),
      parseDigitsAux acc (digitsOf n ++ r) =
        parseDigitsAux (acc * 10 ^ (digitsOf n).length + n) r := by
  induction n using Nat.strong_induction_on with
  | _ n ih =>
    intro acc r
    rw [digitsOf_eq]
    by_cases h : n < 10
    · simp only [if_pos h, List.cons_append, List.nil_append, List.length_cons,
        List.length_nil, Nat.zero_add, pow_one]
      rw [show parseDigitsAux acc (digitChar n :: r) =
          parseDigitsAux (acc * 10 + ((digitChar n).toNat - 48)) r from by
        simp [parseDigitsAux, digitChar_isDigit n h]]
      rw [digitChar_toNat n h]
      congr 1
      omega
    · have hdiv : n / 10 < n := Nat.div_lt_self (by omega) (by omega)
      simp only [if_neg h, List.append_assoc, List.cons_append, List.nil_append,
        List.length_append, List.length_cons, List.length_nil]
      rw [ih (n / 10) hdiv acc (digitChar (n % 10) :: r)]
      rw [show parseDigitsAux (acc * 10 ^ (digitsOf (n / 10)).length + n / 10)
            (digitChar (n % 10) :: r) =
          parseDigitsAux ((acc * 10 ^ (digitsOf (n / 10)).length + n / 10) * 10 +
            ((digitChar (n % 10)).toNat - 48)) r from by
        simp [parseDigitsAux, digitChar_isDigit (n % 10) (Nat.mod_lt n (by omega))]]
      rw [digitChar_toNat (n % 10) (Nat.mod_lt n (by omega))]
      congr 1
      rw [pow_succ, ← Nat.mul_assoc]
      have hdm := Nat.div_add_mod n 10
      generalize acc * 10 ^ (digitsOf (n / 10)).length = A
      omega

theorem parseDigitsAux_stop (n : Nat) (r : List Char) (hr : numBoundary r = true) :
    parseDigitsAux n r = (n, r) := by
  cases r with
  | nil => rfl
  | cons c cs =>
    have hc : c.isDigit = false := by
      simp only [numBoundary, Bool.not_eq_true'] at hr
      simp only [Bool.or_eq_false_iff] at hr
      exact hr.1.1.1
    simp [parseDigitsAux, hc]

theorem parseNatNumber_digits (n : Nat) (r : List Char) (hr : numBoundary r = true) :
    parseNatNumber (digitsOf n ++ r) = some (n, r) := by
  have hstop : ∀ m : Nat, parseDigitsAux m r = (m, r) := fun m => parseDigitsAux_stop m r hr
  rcases Nat.eq_zero_or_pos n with hn | hn
  · subst hn
    rw [show digitsOf 0 = ['0'] from rfl]
    simp only [List.cons_append, List.nil_append]
    cases r with
    | nil => rfl
    | cons c2 cs =>
      have hcond : (c2.isDigit || c2 = '.' || c2 = 'e' || c2 = 'E') = false := by
        simpa [numBoundary] using hr
      have h1 : c2.isDigit = false := by
        simp only [Bool.or_eq_false_iff] at hcond
        exact hcond.1.1.1
      simp [parseNatNumber, hcond]
  · obtain ⟨k, cs, hd, hk1, hk9⟩ := digitsOf_head_pos n hn
    have hne0 : ¬(digitChar k = '0') := by interval_cases k <;> decide
    have hdig : (digitChar k).isDigit = true := digitChar_isDigit k (by omega)
    have hval : (digitChar k).toNat - 48 = k := by
      rw [digitChar_toNat k (by omega)]
      omega
    have hpd : parseDigitsAux k (cs ++ r) = (n, r) := by
      have h0 := parseDigitsAux_digits n 0 r
      rw [hd] at h0
      simp only [List.cons_append] at h0
      rw [show parseDigitsAux 0 (digitChar k :: (cs ++ r)) =
          parseDigitsAux (0 * 10 + ((digitChar k).toNat - 48)) (cs ++ r) from by
        simp [parseDigitsAux, hdig]] at h0
      rw [hval] at h0
      simpa [hstop] using h0
    rw [hd]
    simp only [List.cons_append]
    rw [show parseNatNumber (digitChar k :: (cs ++ r)) =
        match parseDigitsAux ((digitChar k).toNat - 48) (cs ++ r) with
        | (m, r') =>
          match r' with
          | [] => some (m, [])
          | c2 :: _ =>
              if c2 = '.' || c2 = 'e' || c2 = 'E' then none
              else some (m, r') from by
      simp [parseNatNumber, hne0, hdig]]
    rw [hval, hpd]
    cases r with
    | nil => rfl
    | cons c2 cs2 =>
      have hcond : (c2.isDigit || c2 = '.' || c2 = 'e' || c2 = 'E') = false := by
        simpa [numBoundary] using hr
      simp only [Bool.or_eq_false_iff] at hcond
      simp [hcond.1.1.2, hcond.1.2, hcond.2]

theorem parseNumber_encInt (n : Int) (r : List Char) (hr : numBoundary r = true) :
    parseNumber (encInt n ++ r) = some (n, r) := by
  by_cases hneg : n < 0
  · simp only [encInt, if_pos hneg, List.cons_append]
    rw [show parseNumber ('-' :: (digitsOf n.natAbs ++ r)) =
        (parseNatNumber (digitsOf n.natAbs ++ r)).map
          (fun p => (-(p.1 : Int), p.2)) from by simp [parseNumber]]
    rw [parseNatNumber_digits n.natAbs r hr]
    rw [show Option.map (fun p => (-(p.1 : Int), p.2)) (some (n.natAbs, r)) =
        some (-((n.natAbs : Int)), r) from rfl]
    have h2 : -((n.natAbs : Int)) = n := by omega
    rw [h2]
  · obtain ⟨k, cs, hd, hk9⟩ := digitsOf_head_any n.toNat
    have hnds : encInt n = digitsOf n.toNat := by simp [encInt, hneg]
    have hne : ¬(digitChar k = '-') := by interval_cases k <;> decide
    rw [hnds, hd]
    simp only [List.cons_append]
    rw [show parseNumber (digitChar k :: (cs ++ r)) =
        (parseNatNumber (digitChar k :: (cs ++ r))).map
          (fun p => ((p.1 : Int), p.2)) from by simp [parseNumber, hne]]
    rw [← List.cons_append, ← hd, parseNatNumber_digits n.toNat r hr]
    rw [show Option.map (fun p => ((p.1 : Int), p.2)) (some (n.toNat, r)) =
        some (((n.toNat : Int)), r) from rfl]
    have h2 : ((n.toNat : Int)) = n := by omega
    rw [h2]

/-! ## Helper lemmas: strings survive the stringify/parse round trip -/

theorem escList_length_ge (s : List Char) : s.length ≤ (escList s).length := by
  induction s with
  | nil => simp [escList]
  | cons c cs ih =>
    have h1 : 1 ≤ (escChar c).length := by
      unfold escChar
      split_ifs <;> simp
    simp only [escList, List.length_append, List.length_cons]
    omega

theorem hexVal_hexDigitChar (v : Nat) (h : v < 16) : hexVal (hexDigitChar v) = some v := by
  interval_cases v <;> decide

theorem parseStrBody_escList (s : List Char) :
    ∀ (r : List Char) (fuel : Nat), s.length + 1 ≤ fuel →
      parseStrBody fuel (escList s ++ '"' :: r) = some (s, r) := by
  induction s with
  | nil =>
    intro r fuel hf
    obtain ⟨f, rfl⟩ : ∃ f, fuel = f + 1 := ⟨fuel - 1, by omega⟩
    simp [escList, parseStrBody]
  | cons c cs ih =>
    intro r fuel hf
    obtain ⟨f, rfl⟩ : ∃ f, fuel = f + 1 := ⟨fuel - 1, by omega⟩
    have hcs : cs.length + 1 ≤ f := by
      simp only [List.length_cons] at hf
      omega
    have ihr := ih r f hcs
    rw [show escList (c :: cs) = escChar c ++ escList cs from rfl]
    by_cases h1 : c = '"'
    · subst h1
      simp [escChar, parseStrBody, ihr]
    · by_cases h2 : c = '\\'
      · subst h2
        simp [escChar, parseStrBody, ihr]
      · by_cases h3 : c = Char.ofNat 8
        · subst h3
          simp [escChar, parseStrBody, ihr]
        · by_cases h4 : c = '\t'
          · subst h4
            simp [escChar, parseStrBody, ihr]
          · by_cases h5 : c = '\n'
            · subst h5
              simp [escChar, parseStrBody, ihr]
            · by_cases h6 : c = Char.ofNat 12
              · subst h6
                simp [escChar, parseStrBody, ihr]
              · by_cases h7 : c = '\r'
                · subst h7
                  simp [escChar, parseStrBody, ihr]
                · by_cases h8 : c.toNat < 0x20
                  · have hesc : escChar c = ['\\', 'u', '0', '0',
                        hexDigitChar (c.toNat / 16), hexDigitChar (c.toNat % 16)] := by
                      unfold escChar
                      rw [if_neg h1, if_neg h2, if_neg h3, if_neg h4, if_neg h5,
                        if_neg h6, if_neg h7, if_pos h8]
                    have e1 : hexVal (hexDigitChar (c.toNat / 16)) = some (c.toNat / 16) :=
                      hexVal_hexDigitChar _ (by omega)
                    have e2 : hexVal (hexDigitChar (c.toNat % 16)) = some (c.toNat % 16) :=
                      hexVal_hexDigitChar _ (Nat.mod_lt _ (by omega))
                    rw [hesc]
                    simp only [List.cons_append, List.append_assoc, List.nil_append]
                    have e0 : hexVal '0' = some 0 := by decide
                    have hs : ¬(55296 ≤ c.toNat) := by omega
                    simp [parseStrBody, e0, e1, e2, Nat.div_add_mod', hs, ihr]
                  · have hesc : escChar c = [c] := by
                      unfold escChar
                      rw [if_neg h1, if_neg h2, if_neg h3, if_neg h4, if_neg h5,
                        if_neg h6, if_neg h7, if_neg h8]
                    rw [hesc]
                    simp only [List.cons_append, List.nil_append]
                    simp only [parseStrBody]
                    rw [if_neg h1, if_neg h2, if_neg h8, ihr]
                    rfl

/-! ## Helper lemmas: parsing the stringified values -/

theorem skipWs_cons_of_not_ws (c : Char) (l : List Char) (h : isJsonWs c = false) :
    skipWs (c :: l) = c :: l := by
  simp [skipWs, List.dropWhile_cons, h]

theorem digitChar_not_special (k : Nat) (h : k ≤ 9) :
    isJsonWs (digitChar k) = false ∧ ¬(digitChar k = '{') ∧ ¬(digitChar k = '[') ∧
    ¬(digitChar k = '"') ∧ ¬(digitChar k = 't') ∧ ¬(digitChar k = 'f') ∧
    ¬(digitChar k = 'n') := by
  interval_cases k <;> exact ⟨by decide, by decide, by decide, by decide,
    by decide, by decide, by decide⟩

theorem parseValue_encString (s r : List Char) (fuel : Nat) (h : s.length + 2 ≤ fuel) :
    parseValue fuel (encString s ++ r) = some (Json.str s, r) := by
  obtain ⟨f, rfl⟩ : ∃ f, fuel = f + 1 := ⟨fuel - 1, by omega⟩
  rw [show encString s ++ r = '"' :: (escList s ++ '"' :: r) from by
    simp [encString, List.append_assoc]]
  simp only [parseValue]
  rw [skipWs_cons_of_not_ws '"' _ (by decide)]
  simp [parseStrBody_escList s r f (by omega)]

theorem parseValue_encInt (n : Int) (r : List Char) (fuel : Nat) (h : 1 ≤ fuel)
    (hr : numBoundary r = true) :
    parseValue fuel (encInt n ++ r) = some (Json.num n, r) := by
  obtain ⟨f, rfl⟩ : ∃ f, fuel = f + 1 := ⟨fuel - 1, by omega⟩
  have hp := parseNumber_encInt n r hr
  by_cases hneg : n < 0
  · rw [show encInt n = '-' :: digitsOf n.natAbs from by simp [encInt, hneg]] at hp ⊢
    simp only [List.cons_append] at hp ⊢
    simp only [parseValue]
    rw [skipWs_cons_of_not_ws '-' _ (by decide)]
    simp [hp]
  · obtain ⟨k, cs, hd, hk9⟩ := digitsOf_head_any n.toNat
    obtain ⟨hw, hb1, hb2, hb3, hb4, hb5, hb6⟩ := digitChar_not_special k hk9
    have henc : encInt n = digitsOf n.toNat := by simp [encInt, hneg]
    rw [henc, hd] at hp ⊢
    simp only [List.cons_append] at hp ⊢
    simp only [parseValue]
    rw [skipWs_cons_of_not_ws _ _ hw]
    simp [hb1, hb2, hb3, hb4, hb5, hb6, hp]

theorem parseValue_encBool (b : Bool) (r : List Char) (fuel : Nat) (h : 1 ≤ fuel) :
    parseValue fuel (encBool b ++ r) = some (Json.bool b, r) := by
  obtain ⟨f, rfl⟩ : ∃ f, fuel = f + 1 := ⟨fuel - 1, by omega⟩
  cases b
  · rw [show encBool false ++ r = 'f' :: ('a' :: 'l' :: 's' :: 'e' :: r) from rfl]
    simp only [parseValue]
    rw [skipWs_cons_of_not_ws 'f' _ (by decide)]
    simp
  · rw [show encBool true ++ r = 't' :: ('r' :: 'u' :: 'e' :: r) from rfl]
    simp only [parseValue]
    rw [skipWs_cons_of_not_ws 't' _ (by decide)]
    simp

/-! ## Helper lemmas: parsing stringified objects and arrays -/

theorem itemFieldsText_eq (it : ImageItem) :
    itemFieldsText it = fieldsTextOf (itemFieldDescs it) := by
  cases herr : it.error <;>
    simp [itemFieldsText, itemFieldDescs, fieldsTextOf, herr, fieldText, List.append_assoc]

theorem itemJson_eq (it : ImageItem) :
    itemJson it = Json.obj ((itemFieldDescs it).map (fun t => (t.1, t.2.2))) := by
  cases herr : it.error <;> simp [itemJson, itemFieldDescs, herr]

theorem fieldsTextOf_head (k v : List Char) (jv : Json)
    (rest : List (List Char × List Char × Json)) (r : List Char) :
    fieldsTextOf ((k, v, jv) :: rest) ++ r =
      '"' :: (escList k ++ '"' :: ':' ::
        (v ++ (match rest with
               | [] => '}' :: r
               | _ :: _ => ',' :: (fieldsTextOf rest ++ r)))) := by
  cases rest <;> simp [fieldsTextOf, fieldText, encString, List.append_assoc]

theorem parseFields_fieldsTextOf :
    ∀ (fs : List (List Char × List Char × Json)) (r : List Char) (fuel : Nat),
      fs ≠ [] →
      (∀ t ∈ fs, ∀ (g : Nat) (X : List Char), numBoundary X = true →
        fuel ≤ g + fs.length →
        t.1.length + 1 ≤ g ∧ parseValue g (t.2.1 ++ X) = some (t.2.2, X)) →
      parseFields fuel (fieldsTextOf fs ++ r) =
        some (fs.map (fun t => (t.1, t.2.2)), r) := by
  intro fs
  induction fs with
  | nil => intro r fuel h; exact absurd rfl h
  | cons t rest ih =>
    intro r fuel _ hvals
    obtain ⟨k, v, jv⟩ := t
    cases rest with
    | nil =>
      obtain ⟨hklen, hv⟩ := hvals (k, v, jv) (by simp) (fuel - 1) ('}' :: r)
        rfl (by simp; omega)
      obtain ⟨f, rfl⟩ : ∃ f, fuel = f + 1 := ⟨fuel - 1, by omega⟩
      simp only [Nat.add_sub_cancel] at hklen hv
      rw [fieldsTextOf_head]
      simp only [parseFields]
      rw [skipWs_cons_of_not_ws '"' _ (by decide)]
      simp [parseStrBody_escList k (':' :: (v ++ '}' :: r)) f (by omega),
        skipWs_cons_of_not_ws ':' _ (by decide), hv,
        skipWs_cons_of_not_ws '}' _ (by decide)]
    | cons t2 rest2 =>
      obtain ⟨hklen, hv⟩ := hvals (k, v, jv) (by simp) (fuel - 1)
        (',' :: (fieldsTextOf (t2 :: rest2) ++ r)) rfl (by simp; omega)
      obtain ⟨f, rfl⟩ : ∃ f, fuel = f + 1 := ⟨fuel - 1, by omega⟩
      simp only [Nat.add_sub_cancel] at hklen hv
      have hih : parseFields f (fieldsTextOf (t2 :: rest2) ++ r) =
          some ((t2 :: rest2).map (fun t => (t.1, t.2.2)), r) := by
        apply ih r f (by simp)
        intro t' ht' g X hX hg
        refine hvals t' (by simp [ht']) g X hX ?_
        simp only [List.length_cons] at hg ⊢
        omega
      rw [fieldsTextOf_head]
      simp only [parseFields]
      rw [skipWs_cons_of_not_ws '"' _ (by decide)]
      simp [parseStrBody_escList k (':' :: (v ++ ',' :: (fieldsTextOf (t2 :: rest2) ++ r))) f
        (by omega),
        skipWs_cons_of_not_ws ':' _ (by decide), hv,
        skipWs_cons_of_not_ws ',' _ (by decide), hih]

theorem encInt_length_pos (n : Int) : 1 ≤ (encInt n).length := by
  obtain ⟨k, cs, hd, _⟩ := digitsOf_head_any n.natAbs
  obtain ⟨k2, cs2, hd2, _⟩ := digitsOf_head_any n.toNat
  by_cases h : n < 0 <;> simp [encInt, h, hd, hd2]

theorem parseValue_encItem (it : ImageItem) (r : List Char) (fuel : Nat)
    (hf : it.id.data.length + it.url.data.length + 16 ≤ fuel) :
    parseValue fuel (encItem it ++ r) = some (itemJson it, r) := by
  obtain ⟨f, rfl⟩ : ∃ f, fuel = f + 1 := ⟨fuel - 1, by omega⟩
  rw [show encItem it ++ r = '{' :: (itemFieldsText it ++ r) from by simp [encItem]]
  simp only [parseValue]
  rw [skipWs_cons_of_not_ws '{' _ (by decide)]
  rw [itemFieldsText_eq, itemJson_eq]
  have hfields : parseFields f (fieldsTextOf (itemFieldDescs it) ++ r) =
      some ((itemFieldDescs it).map (fun t => (t.1, t.2.2)), r) := by
    apply parseFields_fieldsTextOf (itemFieldDescs it) r f (by
      cases herr : it.error <;> simp [itemFieldDescs, herr])
    intro t ht g X hX hg
    have hlen4 : (itemFieldDescs it).length ≤ 4 := by
      cases herr : it.error <;> simp [itemFieldDescs, herr]
    have hg16 : it.id.data.length + it.url.data.length + 11 ≤ g := by omega
    cases herr : it.error with
    | none =>
      simp only [itemFieldDescs, herr, List.mem_cons, List.not_mem_nil, or_false] at ht
      rcases ht with rfl | rfl | rfl
      · exact ⟨by simp; omega, parseValue_encString _ X g (by omega)⟩
      · exact ⟨by simp; omega, parseValue_encString _ X g (by omega)⟩
      · exact ⟨by simp; omega, parseValue_encInt _ X g (by omega) hX⟩
    | some b =>
      simp only [itemFieldDescs, herr, List.mem_cons, List.not_mem_nil, or_false] at ht
      rcases ht with rfl | rfl | rfl | rfl
      · exact ⟨by simp; omega, parseValue_encString _ X g (by omega)⟩
      · exact ⟨by simp; omega, parseValue_encString _ X g (by omega)⟩
      · exact ⟨by simp; omega, parseValue_encInt _ X g (by omega) hX⟩
      · exact ⟨by simp; omega, parseValue_encBool _ X g (by omega)⟩
  rw [show itemFieldDescs it =
      ("id".data, encString it.id.data, Json.str it.id.data) ::
      (("url".data, encString it.url.data, Json.str it.url.data) ::
        ("createdAt".data, encInt it.createdAt, Json.num it.createdAt) ::
        (match it.error with
         | none => []
         | some b => [("error".data, encBool b, Json.bool b)])) from rfl]
  rw [fieldsTextOf_head]
  rw [show itemFieldDescs it =
      ("id".data, encString it.id.data, Json.str it.id.data) ::
      (("url".data, encString it.url.data, Json.str it.url.data) ::
        ("createdAt".data, encInt it.createdAt, Json.num it.createdAt) ::
        (match it.error with
         | none => []
         | some b => [("error".data, encBool b, Json.bool b)])) from rfl] at hfields
  rw [fieldsTextOf_head] at hfields
  simp only [List.cons_append]
  rw [skipWs_cons_of_not_ws '"' _ (by decide)]
  simp [hfields]

theorem encItemsSep_head (it : ImageItem) (rest : List ImageItem) (r : List Char) :
    encItemsSep (it :: rest) ++ r =
      '{' :: (itemFieldsText it ++
        (match rest with
         | [] => r
         | _ :: _ => ',' :: (encItemsSep rest ++ r))) := by
  cases rest <;> simp [encItemsSep, encItem, List.append_assoc]

theorem parseElems_encItemsSep :
    ∀ (l : List ImageItem) (r : List Char) (fuel : Nat), l ≠ [] →
      (∀ it ∈ l, it.id.data.length + it.url.data.length + 17 + l.length ≤ fuel) →
      parseElems fuel (encItemsSep l ++ ']' :: r) = some (l.map itemJson, r) := by
  intro l
  induction l with
  | nil => intro r fuel h; exact absurd rfl h
  | cons it rest ih =>
    intro r fuel _ hvals
    have hit := hvals it (by simp)
    obtain ⟨f, rfl⟩ : ∃ f, fuel = f + 1 := ⟨fuel - 1, by omega⟩
    cases rest with
    | nil =>
      rw [show encItemsSep [it] ++ ']' :: r = encItem it ++ ']' :: r from by
        simp [encItemsSep]]
      simp only [parseElems]
      rw [parseValue_encItem it (']' :: r) f (by
        simp only [List.length_cons, List.length_nil] at hit
        omega)]
      simp [skipWs_cons_of_not_ws ']' _ (by decide)]
    | cons it2 rest2 =>
      rw [show encItemsSep (it :: it2 :: rest2) ++ ']' :: r =
          encItem it ++ (',' :: (encItemsSep (it2 :: rest2) ++ ']' :: r)) from by
        simp [encItemsSep, List.append_assoc]]
      simp only [parseElems]
      rw [parseValue_encItem it (',' :: (encItemsSep (it2 :: rest2) ++ ']' :: r)) f (by
        simp only [List.length_cons] at hit
        omega)]
      have hih : parseElems f (encItemsSep (it2 :: rest2) ++ ']' :: r) =
          some ((it2 :: rest2).map itemJson, r) := by
        apply ih r f (by simp)
        intro it' hit'
        have := hvals it' (by simp [hit'])
        simp only [List.length_cons] at this ⊢
        omega
      simp [skipWs_cons_of_not_ws ',' _ (by decide), hih]

theorem encItem_le_encItemsSep :
    ∀ (l : List ImageItem), ∀ it' ∈ l, (encItem it').length ≤ (encItemsSep l).length := by
  intro l
  induction l with
  | nil => intro it' h; simp at h
  | cons a l2 ih =>
    intro it' hmem
    rcases List.mem_cons.mp hmem with rfl | hmem2
    · cases l2 with
      | nil => simp [encItemsSep]
      | cons b l3 =>
        simp only [encItemsSep, List.length_append, List.length_cons]
        omega
    · have h2 := ih it' hmem2
      cases hl2 : l2 with
      | nil => rw [hl2] at hmem2; simp at hmem2
      | cons b l3 =>
        rw [hl2] at h2
        simp only [encItemsSep, List.length_append, List.length_cons]
        omega

theorem length_le_encItemsSep :
    ∀ (l : List ImageItem), l.length ≤ (encItemsSep l).length + 1 := by
  intro l
  induction l with
  | nil => simp [encItemsSep]
  | cons a l2 ih =>
    cases hl2 : l2 with
    | nil => simp [encItemsSep]
    | cons b l3 =>
      rw [hl2] at ih
      simp only [encItemsSep, List.length_append, List.length_cons] at ih ⊢
      omega

theorem encItem_length_ge (it : ImageItem) :
    it.id.data.length + it.url.data.length + 18 ≤ (encItem it).length := by
  have h1 := escList_length_ge it.id.data
  have h2 := escList_length_ge it.url.data
  have h3 := encInt_length_pos it.createdAt
  cases herr : it.error with
  | none =>
    simp only [encItem, itemFieldsText, fieldText, encString, herr, List.length_append,
      List.length_cons, List.cons_append, List.append_assoc, List.length_nil]
    have e1 : (escList "id".data).length = 2 := rfl
    have e2 : (escList "url".data).length = 3 := rfl
    have e3 : (escList "createdAt".data).length = 9 := rfl
    omega
  | some b =>
    have hb : 4 ≤ (encBool b).length := by cases b <;> decide
    simp only [encItem, itemFieldsText, fieldText, encString, herr, List.length_append,
      List.length_cons, List.cons_append, List.append_assoc, List.length_nil]
    have e1 : (escList "id".data).length = 2 := rfl
    have e2 : (escList "url".data).length = 3 := rfl
    have e3 : (escList "createdAt".data).length = 9 := rfl
    have e4 : (escList "error".data).length = 5 := rfl
    omega

theorem jsonParse_stringifyImages (l : List ImageItem) :
    jsonParse (stringifyImages l) = some (encodeItems l) := by
  cases l with
  | nil => rfl
  | cons it rest =>
    unfold jsonParse
    have hlen : (stringifyImages (it :: rest)).length =
        (encItemsSep (it :: rest)).length + 2 := by
      simp [stringifyImages]
    obtain ⟨E, hE⟩ : ∃ E, (encItemsSep (it :: rest)).length = E := ⟨_, rfl⟩
    rw [show (2 * (stringifyImages (it :: rest)).length + 2) = 2 * E + 6 from by omega]
    rw [show stringifyImages (it :: rest) = '[' :: (encItemsSep (it :: rest) ++ [']']) from by
      simp [stringifyImages]]
    rw [show (2 * E + 6 : Nat) = (2 * E + 5) + 1 from by omega]
    simp only [parseValue]
    rw [skipWs_cons_of_not_ws '[' _ (by decide)]
    have helems : parseElems (2 * E + 5) (encItemsSep (it :: rest) ++ ']' :: []) =
        some ((it :: rest).map itemJson, []) := by
      apply parseElems_encItemsSep (it :: rest) [] (2 * E + 5) (by simp)
      intro it' hmem
      have ha := encItem_le_encItemsSep (it :: rest) it' hmem
      have hb := encItem_length_ge it'
      have hc := length_le_encItemsSep (it :: rest)
      omega
    rw [encItemsSep_head it rest [']']]
    rw [encItemsSep_head it rest [']']] at helems
    simp only [List.cons_append]
    rw [skipWs_cons_of_not_ws '{' _ (by decide)]
    simp [helems, encodeItems, skipWs]

/-! ## Helper lemmas: decoding the encoded records -/

theorem decodeItem_itemJson (it : ImageItem) : decodeItem (itemJson it) = some it := by
  obtain ⟨iid, iurl, ica, ierr⟩ := it
  obtain ⟨d1⟩ := iid
  obtain ⟨d2⟩ := iurl
  cases ierr with
  | none => simp [itemJson, decodeItem]
  | some b => simp [itemJson, decodeItem]

theorem decodeItems_encodeItems (l : List ImageItem) : decodeItems (encodeItems l) = some l := by
  rw [show decodeItems (encodeItems l) = decodeItemList (l.map itemJson) from rfl]
  induction l with
  | nil => rfl
  | cons it rest ih => simp [decodeItemList, decodeItem_itemJson, ih]

/-! ## Reachability of the concrete example states -/

theorem exReachA_closed :
    Reachable (AppState.mk "" [exItemA] Cursor.closed false none) := by
  have h0 : Reachable initState := Reachable.init
  have h1 := h0.step (Step.input "https://x/a.png" initState)
  have h2 := h1.step (Step.add "a" 0 (setUrlInput "https://x/a.png" initState) (by decide))
  have he : addImage "a" 0 (setUrlInput "https://x/a.png" initState) =
      AppState.mk "" [exItemA] Cursor.closed false none := by decide
  rw [he] at h2
  exact h2

theorem exReachA_open : Reachable exStateA_open := by
  have h2 := exReachA_closed
  have h3 := h2.step (Step.openV 0 (AppState.mk "" [exItemA] Cursor.closed false none)
    (by decide))
  have he : openViewer 0 (AppState.mk "" [exItemA] Cursor.closed false none) =
      exStateA_open := by decide
  rw [he] at h3
  exact h3

theorem exReachBA : Reachable exStateBA := by
  have h2 := exReachA_closed
  have h3 := h2.step (Step.input "https://x/b.png"
    (AppState.mk "" [exItemA] Cursor.closed false none))
  have h4 := h3.step (Step.add "b" 1
    (setUrlInput "https://x/b.png" (AppState.mk "" [exItemA] Cursor.closed false none))
    (by decide))
  have he : addImage "b" 1
      (setUrlInput "https://x/b.png" (AppState.mk "" [exItemA] Cursor.closed false none)) =
      exStateBA := by decide
  rw [he] at h4
  exact h4

/-! ## Supporting lemmas for the claims -/

theorem filter_length_of_count_one (l : List ImageItem) (id : String)
    (hcount : (l.map ImageItem.id).count id = 1) :
    (l.filter (fun img => img.id != id)).length + 1 = l.length := by
  induction l with
  | nil => simp at hcount
  | cons x xs ih =>
    by_cases hx : x.id = id
    · have h0 : (xs.map ImageItem.id).count id = 0 := by
        simp [List.count_cons, hx] at hcount
        omega
      have hnm : id ∉ xs.map ImageItem.id := List.count_eq_zero.mp h0
      have hall : xs.filter (fun img => img.id != id) = xs := by
        rw [List.filter_eq_self]
        intro a ha
        have hmem : a.id ∈ xs.map ImageItem.id := List.mem_map_of_mem _ ha
        simp only [bne_iff_ne, ne_eq]
        intro he
        exact hnm (he ▸ hmem)
      have hxb : (x.id != id) = false := by simpa using hx
      simp [List.filter_cons, hxb, hall]
    · have h1 : (xs.map ImageItem.id).count id = 1 := by
        simp [List.count_cons, hx] at hcount
        omega
      have hxb : (x.id != id) = true := by simpa using hx
      have := ih h1
      simp [List.filter_cons, hxb]
      omega

theorem getD_map_lt (f : α → α) (l : List α) (k : Nat) (d : α)
    (hk : k < l.length) : (l.map f).getD k d = f (l.getD k d) := by
  induction l generalizing k with
  | nil => simp at hk
  | cons x xs ih =>
    cases k with
    | zero => rfl
    | succ m => simpa using ih m (by simpa using hk)

/-! ## The claims -/

/-- C1: for every list (in which exactly one record carries the removed id,
as presupposed by "deletes the record whose id matches" together with the
id-uniqueness invariant) and every open numeric cursor, `remove(id)` deletes
the matching record and clamps the cursor to `min(cursor, newLength - 1)`;
when the list becomes empty the cursor (then `-1`) is no longer a valid open
state, so the viewer implicitly closes. -/
theorem remove_clamps_cursor (s : AppState) (i : Int) (id : String)
    (hv : s.viewerIndex = Cursor.pos i)
    (hcount : (s.images.map ImageItem.id).count id = 1) :
    (removeImage id s).images = s.images.filter (fun img => img.id != id) ∧
    (removeImage id s).images.length + 1 = s.images.length ∧
    (removeImage id s).viewerIndex =
      Cursor.pos (min i (((removeImage id s).images.length : Int) - 1)) ∧
    ((removeImage id s).images = [] → ¬viewerOpen (removeImage id s)) := by
  have hflen := filter_length_of_count_one s.images id hcount
  refine ⟨rfl, hflen, ?_, ?_⟩
  · simp only [removeImage, hv]
    have : ((s.images.filter (fun img => img.id != id)).length : Int) - 1 =
        (s.images.length : Int) - 2 := by
      have : ((s.images.filter (fun img => img.id != id)).length : Int) + 1 =
          (s.images.length : Int) := by exact_mod_cast hflen
      omega
    rw [this]
  · intro hempty
    rintro ⟨j, hj, h0, hl⟩
    rw [hempty] at hl
    simp at hl
    omega

/-- C1 witness: removing `a` from `[b, a]` while viewing index 1 clamps the
cursor to index 0 and shrinks the list by one. -/
theorem remove_clamps_cursor_witness :
    (removeImage "a" exStateBA_open).viewerIndex = Cursor.pos 0 ∧
    (removeImage "a" exStateBA_open).images.length + 1 = exStateBA_open.images.length := by
  have h := remove_clamps_cursor exStateBA_open 1 "a" rfl (by decide)
  refine ⟨?_, h.2.1⟩
  rw [h.2.2.1]
  decide

/-- C4: with a valid URL in the input buffer and no add in flight, `add`
prepends exactly one new record carrying the supplied fresh id and
timestamp (and the trimmed URL) and clears the input; the prepended fresh id
keeps the ids pairwise distinct.  When the input is invalid or an add is in
flight, the state is entirely unchanged. -/
theorem addImage_spec (s : AppState) (freshId : String) (now : Int) :
    (isValidUrl s.urlInput = true → s.isSubmitting = false →
      (addImage freshId now s).images =
        ⟨freshId, String.mk (jsTrim s.urlInput.data), now, none⟩ :: s.images ∧
      (addImage freshId now s).urlInput = "" ∧
      (addImage freshId now s).isSubmitting = false ∧
      (freshId ∉ s.images.map ImageItem.id → (s.images.map ImageItem.id).Nodup →
        ((addImage freshId now s).images.map ImageItem.id).Nodup)) ∧
    (isValidUrl s.urlInput = false ∨ s.isSubmitting = true →
      addImage freshId now s = s) := by
  constructor
  · intro hvalid hsub
    have hcond : (!isValidUrl s.urlInput || s.isSubmitting) = false := by
      simp [hvalid, hsub]
    refine ⟨?_, ?_, ?_, ?_⟩
    · simp [addImage, hcond]
    · simp [addImage, hcond]
    · simp [addImage, hcond]
    · intro hfresh hnd
      simp only [addImage, hcond, Bool.false_eq_true, if_false, List.map_cons]
      exact List.nodup_cons.mpr ⟨hfresh, hnd⟩
  · intro hbad
    have hcond : (!isValidUrl s.urlInput || s.isSubmitting) = true := by
      rcases hbad with h | h <;> simp [h]
    simp [addImage, hcond]

/-- C4 witness: adding `https://example.com/a.png` to the empty list yields
exactly one record and clears the input; an add on an invalid input is a
no-op. -/
theorem addImage_spec_witness :
    (addImage "u1" 7 (AppState.mk "https://example.com/a.png" [] Cursor.closed false none)).images =
      [⟨"u1", "https://example.com/a.png", 7, none⟩] ∧
    (addImage "u1" 7 (AppState.mk "https://example.com/a.png" [] Cursor.closed false none)).urlInput = "" ∧
    addImage "u2" 8 (AppState.mk "notaurl" [] Cursor.closed false none) =
      AppState.mk "notaurl" [] Cursor.closed false none := by
  have h := (addImage_spec (AppState.mk "https://example.com/a.png" [] Cursor.closed false none)
    "u1" 7).1 (by decide) rfl
  have h2 := (addImage_spec (AppState.mk "notaurl" [] Cursor.closed false none)
    "u2" 8).2 (Or.inl (by decide))
  refine ⟨?_, h.2.1, h2⟩
  rw [h.1]
  decide

/-- C5: on a list with pairwise-distinct ids containing the id, `remove(id)`
shrinks the list by exactly one, every record with a different id stays (and
nothing else appears), and removing the currently-viewed record when it is
the only record leaves no valid open cursor: the viewer closes. -/
theorem remove_exact_spec (s : AppState) (id : String) (a : ImageItem)
    (hnd : (s.images.map ImageItem.id).Nodup)
    (hmem : id ∈ s.images.map ImageItem.id) :
    (removeImage id s).images.length + 1 = s.images.length ∧
    (∀ r : ImageItem, r ∈ s.images → r.id ≠ id → r ∈ (removeImage id s).images) ∧
    (∀ r : ImageItem, r ∈ (removeImage id s).images → r ∈ s.images ∧ r.id ≠ id) ∧
    (s.images = [a] → s.viewerIndex = Cursor.pos 0 → a.id = id →
      ¬viewerOpen (removeImage id s)) := by
  refine ⟨removeImage_filter_length s.images id hnd hmem, ?_, ?_, ?_⟩
  · intro r hr hne
    simp only [removeImage, List.mem_filter]
    exact ⟨hr, by simpa using hne⟩
  · intro r hr
    simp only [removeImage, List.mem_filter] at hr
    exact ⟨hr.1, by simpa using hr.2⟩
  · intro hsing hview haid
    rintro ⟨j, hj, h0, hl⟩
    have hempty : (removeImage id s).images = [] := by
      simp only [removeImage, hsing, List.filter_cons, List.filter_nil]
      have : (a.id != id) = false := by simpa using haid
      simp [this]
    rw [hempty] at hl
    simp at hl
    omega

/-- C5 witness: removing the only (currently viewed) record empties the list
and closes the viewer. -/
theorem remove_exact_spec_witness :
    ¬viewerOpen (removeImage "a" exStateA_open) ∧
    (removeImage "a" exStateA_open).images.length + 1 = exStateA_open.images.length := by
  have h := remove_exact_spec exStateA_open "a" exItemA (by decide) (by decide)
  exact ⟨h.2.2.2 rfl rfl rfl, h.1⟩

/-- C6: with the viewer open at a valid index `i` of a non-empty list of
length `N`, `prev()` moves the cursor to `(i - 1 + N) mod N` and `next()` to
`(i + 1) mod N`; from `0`, `prev()` lands on `N - 1`, from `N - 1`, `next()`
lands on `0`; and from the closed state both are no-ops. -/
theorem viewer_navigation_circular (s : AppState) (i : Int)
    (hv : s.viewerIndex = Cursor.pos i) (h0 : 0 ≤ i)
    (hN : i < (s.images.length : Int)) :
    ((goPrev s).viewerIndex =
        Cursor.pos ((i - 1 + (s.images.length : Int)) % (s.images.length : Int)) ∧
      (goNext s).viewerIndex = Cursor.pos ((i + 1) % (s.images.length : Int)) ∧
      (i = 0 → (goPrev s).viewerIndex = Cursor.pos ((s.images.length : Int) - 1)) ∧
      (i = (s.images.length : Int) - 1 → (goNext s).viewerIndex = Cursor.pos 0)) ∧
    (∀ s' : AppState, s'.viewerIndex = Cursor.closed →
      goPrev s' = s' ∧ goNext s' = s') := by
  have hlen : s.images.length ≠ 0 := by
    intro h
    rw [h] at hN
    omega
  have hposN : (0 : Int) < (s.images.length : Int) := by
    have : 0 < s.images.length := Nat.pos_of_ne_zero hlen
    exact_mod_cast this
  have hprev : (goPrev s).viewerIndex =
      Cursor.pos ((i - 1 + (s.images.length : Int)) % (s.images.length : Int)) := by
    simp only [goPrev, hv, if_neg hlen]
    rw [Int.tmod_eq_emod (by omega) (by omega)]
  have hnext : (goNext s).viewerIndex =
      Cursor.pos ((i + 1) % (s.images.length : Int)) := by
    simp only [goNext, hv, if_neg hlen]
    rw [Int.tmod_eq_emod (by omega) (by omega)]
  refine ⟨⟨hprev, hnext, ?_, ?_⟩, ?_⟩
  · intro hi0
    rw [hprev, hi0]
    have : ((0 : Int) - 1 + (s.images.length : Int)) % (s.images.length : Int) =
        (s.images.length : Int) - 1 := by
      rw [Int.emod_eq_of_lt (by omega) (by omega)]
      omega
    rw [this]
  · intro hiN
    rw [hnext, hiN]
    have : ((s.images.length : Int) - 1 + 1) % (s.images.length : Int) = 0 := by
      rw [show (s.images.length : Int) - 1 + 1 = (s.images.length : Int) from by omega]
      simp [Int.emod_self]
    rw [this]
  · intro s' hs'
    obtain ⟨u, im, v, sub, t⟩ := s'
    replace hs' : v = Cursor.closed := hs'
    subst hs'
    exact ⟨rfl, rfl⟩

/-- C6 witness: on a two-image list viewed at index 0, `prev()` wraps to
index 1 and `next()` moves to index 1; from the closed state both are
no-ops. -/
theorem viewer_navigation_circular_witness :
    (goPrev exStateTouch).viewerIndex = Cursor.pos 1 ∧
    (goNext exStateTouch).viewerIndex = Cursor.pos 1 ∧
    goPrev exStateBA = exStateBA ∧ goNext exStateBA = exStateBA := by
  have h := viewer_navigation_circular exStateTouch 0 rfl (by omega) (by decide)
  have hp := (h.1).2.2.1 rfl
  have hn := (h.1).1
  have hc := h.2 exStateBA rfl
  refine ⟨?_, ?_, hc.1, hc.2⟩
  · rw [hp]
    decide
  · rw [(h.1).2.1]
    decide

/-- C2 counterexample: the claim that only add and remove change the list
order is false — from the reachable two-image state, the Shuffle button
(`shuffleImages`, with the random draws taking value 0) reorders the
list. -/
theorem list_order_counterexample :
    ∃ (s : AppState) (rand : Nat → Nat), Reachable s ∧
      (shuffleImages rand s).images ≠ s.images := by
  refine ⟨exStateBA, fun _ => 0, exReachBA, ?_⟩
  decide

/-- C2 amended: the list is changed only by add (prepend), remove (delete)
and shuffle; shuffle merely permutes the records (preserving the multiset,
hence length and membership), `markError` preserves the sequence of ids and
the length, and the viewer, touch and input operations leave the list
untouched, so most-recently-added-first order is maintained by everything
except an explicit shuffle. -/
theorem list_order_amended :
    (∀ (rand : Nat → Nat) (s : AppState),
      List.Perm (shuffleImages rand s).images s.images) ∧
    (∀ (id : String) (s : AppState),
      (handleImageError id s).images.map ImageItem.id = s.images.map ImageItem.id ∧
      (handleImageError id s).images.length = s.images.length) ∧
    (∀ s : AppState,
      (goPrev s).images = s.images ∧ (goNext s).images = s.images ∧
      (closeViewer s).images = s.images ∧
      (∀ i : Nat, (openViewer i s).images = s.images) ∧
      (∀ x : Option Int, (onTouchStart x s).images = s.images ∧
        (onTouchEnd x s).images = s.images) ∧
      (∀ t : String, (setUrlInput t s).images = s.images)) := by
  refine ⟨shuffleImages_perm,
    fun id s => ⟨handleImageError_ids id s, handleImageError_length id s⟩, ?_⟩
  intro s
  refine ⟨rfl, rfl, rfl, fun i => rfl, fun x => ⟨rfl, ?_⟩, fun t => rfl⟩
  cases hts : s.touchStartX with
  | none => simp [onTouchEnd, hts]
  | some startX =>
    by_cases h1 : x.getD startX - startX > 40
    · simp [onTouchEnd, hts, h1, goPrev_images]
    · by_cases h2 : x.getD startX - startX < -40
      · simp [onTouchEnd, hts, h1, h2, goNext_images]
      · simp [onTouchEnd, hts, h1, h2]

/-- C3 counterexample: the cursor-validity invariant as stated is false —
after removing the only record while it is viewed, the reachable state has
cursor `-1`, which is not the closed value `null` yet is not a valid
position either. -/
theorem cursor_validity_counterexample :
    ∃ s : AppState, Reachable s ∧ s.viewerIndex ≠ Cursor.closed ∧
      ¬∃ i : Int, s.viewerIndex = Cursor.pos i ∧ 0 ≤ i ∧
        i < (s.images.length : Int) := by
  refine ⟨removeImage "a" exStateA_open,
    exReachA_open.step (Step.remove "a" exStateA_open (by decide)), ?_, ?_⟩
  · decide
  · rintro ⟨i, hi, h0, hl⟩
    have hv : (removeImage "a" exStateA_open).viewerIndex = Cursor.pos (-1) := by decide
    rw [hv] at hi
    have h2 : (-1 : Int) = i := Cursor.pos.inj hi
    omega

/-- C3 amended: in every reachable state an open numeric cursor lies in
`[-1, length)`: it is a valid position whenever it is non-negative, and the
single out-of-range value `-1` (arising exactly when the viewed last record
is removed) makes the viewer hide. -/
theorem cursor_bounds_amended (s : AppState) (h : Reachable s) (i : Int)
    (hv : s.viewerIndex = Cursor.pos i) :
    -1 ≤ i ∧ i < (s.images.length : Int) :=
  (reachable_inv h).2 i hv

/-- C3 amended witness: the bounds hold at the reachable one-image state
with the viewer open at index 0. -/
theorem cursor_bounds_amended_witness :
    -1 ≤ (0 : Int) ∧ (0 : Int) < (exStateA_open.images.length : Int) :=
  cursor_bounds_amended exStateA_open exReachA_open 0 rfl

/-- C7: the validator accepts an input iff it is non-blank after trimming
and the trimmed text parses as an absolute URL whose protocol is `http:` or
`https:`; consequently every input whose trimmed text does not parse to an
http(s) protocol — in particular every non-blank string lacking such a
scheme — is rejected. -/
theorem isValidUrl_spec (s : String) :
    (isValidUrl s = true ↔
      ((jsTrim s.data).isEmpty = false ∧
        ∃ u : UrlRecord, parseUrl (jsTrim s.data) = some u ∧
          (u.protocol = "http:".data ∨ u.protocol = "https:".data))) ∧
    ((∀ u : UrlRecord, parseUrl (jsTrim s.data) = some u →
        ¬(u.protocol = "http:".data ∨ u.protocol = "https:".data)) →
      isValidUrl s = false) := by
  constructor
  · by_cases he : (jsTrim s.data).isEmpty
    · simp [isValidUrl, he]
    · cases hp : parseUrl (jsTrim s.data) with
      | none => simp [isValidUrl, he, hp]
      | some u => simp [isValidUrl, he, hp]
  · intro hall
    by_cases he : (jsTrim s.data).isEmpty
    · simp [isValidUrl, he]
    · cases hp : parseUrl (jsTrim s.data) with
      | none => simp [isValidUrl, he, hp]
      | some u =>
        have := hall u hp
        simp only [not_or] at this
        simp [isValidUrl, he, hp, this.1, this.2]

/-- C7 witness: a well-formed https URL is accepted; a non-blank string with
no scheme at all is rejected, via the no-http(s)-parse implication. -/
theorem isValidUrl_spec_witness :
    isValidUrl "https://example.com/image.jpg" = true ∧
    isValidUrl "notaurl" = false := by
  constructor
  · have h := (isValidUrl_spec "https://example.com/image.jpg").1
    exact h.mpr (by decide)
  · apply (isValidUrl_spec "notaurl").2
    intro u hu
    rw [show parseUrl (jsTrim "notaurl".data) = none from by decide] at hu
    cases hu

/-- C8: while a touch is in progress and the viewer is open, releasing at
horizontal delta above `+40` triggers `prev()`, below `-40` triggers
`next()`, and any delta of magnitude at most `40` triggers neither; the
gesture never touches the list and always clears the recorded start. -/
theorem touch_swipe_spec (s : AppState) (startX endX i : Int)
    (hts : s.touchStartX = some startX)
    (hv : s.viewerIndex = Cursor.pos i) (h0 : 0 ≤ i)
    (hN : i < (s.images.length : Int)) :
    (endX - startX > 40 →
      (onTouchEnd (some endX) s).viewerIndex = (goPrev s).viewerIndex) ∧
    (endX - startX < -40 →
      (onTouchEnd (some endX) s).viewerIndex = (goNext s).viewerIndex) ∧
    (-40 ≤ endX - startX → endX - startX ≤ 40 →
      (onTouchEnd (some endX) s).viewerIndex = s.viewerIndex) ∧
    (onTouchEnd (some endX) s).images = s.images ∧
    (onTouchEnd (some endX) s).touchStartX = none := by
  refine ⟨?_, ?_, ?_, ?_, ?_⟩
  · intro hd
    simp [onTouchEnd, hts, hd]
  · intro hd
    have hd1 : ¬(endX - startX > 40) := by omega
    simp [onTouchEnd, hts, hd, hd1]
  · intro hd1 hd2
    have h1 : ¬(endX - startX > 40) := by omega
    have h2 : ¬(endX - startX < -40) := by omega
    simp [onTouchEnd, hts, h1, h2]
  · cases hts2 : s.touchStartX with
    | none => simp [onTouchEnd, hts2]
    | some sx =>
      by_cases h1 : endX - sx > 40
      · simp [onTouchEnd, hts2, h1, goPrev_images]
      · by_cases h2 : endX - sx < -40
        · simp [onTouchEnd, hts2, h1, h2, goNext_images]
        · simp [onTouchEnd, hts2, h1, h2]
  · cases hts2 : s.touchStartX with
    | none => rw [hts2] at hts; cases hts
    | some sx =>
      by_cases h1 : endX - sx > 40
      · simp [onTouchEnd, hts2, h1]
      · by_cases h2 : endX - sx < -40
        · simp [onTouchEnd, hts2, h1, h2]
        · simp [onTouchEnd, hts2, h1, h2]

/-- C8 witness: from start `100`, releasing at `150` (delta `+50`) moves the
cursor as `prev()` does, at `50` (delta `-50`) as `next()` does, and at
`110` (delta `+10`) leaves the cursor unchanged. -/
theorem touch_swipe_spec_witness :
    (onTouchEnd (some 150) exStateTouch).viewerIndex = (goPrev exStateTouch).viewerIndex ∧
    (onTouchEnd (some 50) exStateTouch).viewerIndex = (goNext exStateTouch).viewerIndex ∧
    (onTouchEnd (some 110) exStateTouch).viewerIndex = exStateTouch.viewerIndex := by
  have h1 := touch_swipe_spec exStateTouch 100 150 0 rfl rfl (by omega) (by decide)
  have h2 := touch_swipe_spec exStateTouch 100 50 0 rfl rfl (by omega) (by decide)
  have h3 := touch_swipe_spec exStateTouch 100 110 0 rfl rfl (by omega) (by decide)
  exact ⟨h1.1 (by omega), h2.2.1 (by omega), h3.2.2.1 (by omega) (by omega)⟩

/-- C9 counterexample: the missing-or-malformed fallback as claimed is
false — the stored text `[0]` is not a well-formed record list (no record
list decodes from it), yet startup does not fall back to the empty list: it
installs the parsed array `[0]` unvalidated. -/
theorem storage_fallback_counterexample :
    startupValue (some "[0]".data) = Json.arr [Json.num 0] ∧
    decodeItems (Json.arr [Json.num 0]) = none ∧
    Json.arr [Json.num 0] ≠ Json.arr [] := by
  refine ⟨rfl, rfl, ?_⟩
  intro h
  injection h with h2
  simp at h2

/-- C9 amended: serializing any record list to the storage key and loading
it back reproduces the identical ordered list; startup falls back to the
empty list when the stored data is missing, empty, or not syntactically
valid JSON — but syntactically valid JSON of the wrong shape is installed
as-is without validation. -/
theorem storage_round_trip_amended :
    (∀ l : List ImageItem,
      startupValue (some (stringifyImages l)) = encodeItems l ∧
      decodeItems (startupValue (some (stringifyImages l))) = some l) ∧
    startupValue none = encodeItems [] ∧
    startupValue (some "".data) = encodeItems [] ∧
    startupValue (some "\x7b".data) = encodeItems [] := by
  refine ⟨?_, rfl, rfl, rfl⟩
  intro l
  have hne : (stringifyImages l).isEmpty = false := by
    simp [stringifyImages]
  have hval : startupValue (some (stringifyImages l)) = encodeItems l := by
    simp only [startupValue, hne, Bool.false_eq_true, if_false,
      jsonParse_stringifyImages l]
  exact ⟨hval, by rw [hval]; exact decodeItems_encodeItems l⟩

/-- C10: removing or error-marking an absent id leaves the list entirely
unchanged; `markError` on any id preserves the length and rewrites each
position to the same record, flipping only the `error` field of the records
whose id matches. -/
theorem frame_remove_markError (s : AppState) (id : String) :
    (id ∉ s.images.map ImageItem.id →
      (removeImage id s).images = s.images ∧
      (handleImageError id s).images = s.images) ∧
    (handleImageError id s).images.length = s.images.length ∧
    (∀ k : Nat, k < s.images.length →
      (handleImageError id s).images.getD k defaultItem =
        (if (s.images.getD k defaultItem).id = id
         then { s.images.getD k defaultItem with error := some true }
         else s.images.getD k defaultItem)) := by
  refine ⟨?_, handleImageError_length id s, ?_⟩
  · intro hnm
    constructor
    · simp only [removeImage]
      rw [List.filter_eq_self]
      intro a ha
      have hmem : a.id ∈ s.images.map ImageItem.id := List.mem_map_of_mem _ ha
      simp only [bne_iff_ne, ne_eq]
      intro he
      exact hnm (he ▸ hmem)
    · simp only [handleImageError]
      have hcongr : ∀ a ∈ s.images,
          (if a.id = id then { a with error := some true } else a) = a := by
        intro a ha
        have hmem : a.id ∈ s.images.map ImageItem.id := List.mem_map_of_mem _ ha
        rw [if_neg]
        intro he
        exact hnm (he ▸ hmem)
      rw [List.map_congr_left hcongr, List.map_id']
  · intro k hk
    rw [show (handleImageError id s).images = s.images.map
      (fun img => if img.id = id then { img with error := some true } else img) from rfl]
    rw [getD_map_lt _ _ k defaultItem hk]

/-- C10 witness: removing or error-marking the absent id `z` leaves the
two-image list unchanged. -/
theorem frame_remove_markError_witness :
    (removeImage "z" exStateBA).images = exStateBA.images ∧
    (handleImageError "z" exStateBA).images = exStateBA.images :=
  (frame_remove_markError exStateBA "z").1 (by decide)

/-- Sanity check: the serializer reproduces `JSON.stringify` output
character-for-character on a concrete record. -/
theorem stringify_concrete :
    String.mk (stringifyImages [⟨"a", "https://x/a.png", 5, none⟩]) =
      "[\x7b\"id\":\"a\",\"url\":\"https://x/a.png\",\"createdAt\":5\x7d]" := by
  rfl

/-- Sanity check: concrete validator behaviour — trimming, case-insensitive
scheme, rejection of blank input, schemeless text, non-http schemes and an
empty host. -/
theorem isValidUrl_concrete :
    isValidUrl "  https://example.com/image.jpg " = true ∧
    isValidUrl "HTTPS://Example.com" = true ∧
    isValidUrl "" = false ∧
    isValidUrl "ftp://example.com/a" = false ∧
    isValidUrl "http://" = false := by
  refine ⟨by decide, by decide, by decide, by decide, by decide⟩
